import Mathlib

/-!
Shallow embedding of the Enigma+ rotor cipher engine
(`src/lib/rotors/core.ts`, `src/lib/rotors/validation.ts`, constants from
`src/lib/rotors/types.ts`).

Modelling conventions:
* JS strings are modelled as `List Char` (one entry per code point).
* Thrown `Error` / `RotorValidationError` values are modelled by
  `Except VError _`; each `VError` constructor corresponds to one of the
  error sites (the `code` field of `RotorValidationError`, or the plain
  `Error` messages in `core.ts`).
* Permutation elements are modelled as `Nat`.  The JS checks
  `Number.isInteger(value)` (code `NON_INTEGER_ELEMENT`) and `value < 0`
  cannot fire for a `Nat` and are not represented; the `value > 63` half of
  the range check is kept.  Likewise `Number.isInteger(position)`
  (`NON_INTEGER_POSITION`) is dropped for `Int`-valued positions.
* `RotorConfig.description/createdAt/updatedAt` are omitted: they do not
  influence any transformation, and the date checks in
  `validateRotorConfig` can only fail for a NaN-valued JS `Date`, which has
  no counterpart for integer timestamps.
* Out-of-bounds array reads (which yield `undefined` in JS and poison the
  subsequent arithmetic) are modelled as explicit failures; they are
  unreachable for validated permutations, which is proved below.
-/

namespace Enigma

/-- Error values: one constructor per throw site of the source. -/
inductive VError where
  | expectedSingleChar (s : List Char)
  | charNotInCharset (c : Char)
  | indexOutOfRange (i : Int)
  | invalidLength (n : Nat)
  | outOfRangeElement (idx : Nat) (v : Nat)
  | duplicateValues (dups : List Nat)
  | missingValues (miss : List Nat)
  | positionOutOfRange (p : Int)
  | invalidId
  | invalidName
  | noRotorsSpecified
  | tooManyRotors (n : Nat)
  | positionCountMismatch (positions rotors : Nat)
  | invalidStartPosition (idx : Nat)
  | duplicateRotorIds
  | invalidCharacters (chars : List Char)
  | invalidArrayIndex (i : Int)
  | cannotEncryptInvalidChar (c : Char)
  | cannotDecryptInvalidChar (c : Char)
  | permutationOutputNotFound (v : Nat)
  | noRotors
  | rotorNotFound (id : String)
  deriving DecidableEq

/-- The 64-symbol character set (`CHARSET` in `types.ts`). -/
def CHARSET : List Char :=
  "ABCDEFGHIJKLMNOPQRSTUVWXYZabcdefghijklmnopqrstuvwxyz0123456789 .".toList

/-- `MAX_ACTIVE_ROTORS` from `types.ts`. -/
def MAX_ACTIVE_ROTORS : Nat := 8

/-- `ROTOR_POSITION_MIN` from `types.ts`. -/
def ROTOR_POSITION_MIN : Int := 1

/-- `ROTOR_POSITION_MAX` from `types.ts`. -/
def ROTOR_POSITION_MAX : Int := 64

/-- `charToIndex` in `core.ts`: single-character check, then
`CHARSET.indexOf` with `-1` modelled as the not-in-charset failure. -/
def charToIndex (s : List Char) : Except VError Nat :=
  match s with
  | [c] =>
    if c ∈ CHARSET then .ok (CHARSET.indexOf c)
    else .error (.charNotInCharset c)
  | _ => .error (.expectedSingleChar s)

/-- `indexToChar` in `core.ts`: `if (index < 0 || index >= CHARSET.length)
throw; return CHARSET[index]` (the guard is stated positively here). -/
def indexToChar (i : Int) : Except VError Char :=
  if h : 0 ≤ i ∧ i < (CHARSET.length : Int) then
    .ok (CHARSET.get ⟨i.toNat, by omega⟩)
  else .error (.indexOutOfRange i)

/-- `isValidCharacter` in `validation.ts`: a single character contained in
`CHARSET` (a Lean `Char` is always exactly one code point). -/
def isValidCharacter (c : Char) : Bool :=
  decide (c ∈ CHARSET)

/-- First out-of-range element of a permutation, with its index: models the
element loop of `validateRotorPermutation`, which throws at the first
offending element. -/
def firstOutOfRange : List Nat → Nat → Option (Nat × Nat)
  | [], _ => none
  | v :: rest, i => if 63 < v then some (i, v) else firstOutOfRange rest (i + 1)

/-- The duplicate-collection loop of `validateRotorPermutation`: walks the
permutation with a `seen` set, returning (duplicates in scan order, final
seen set).  The JS `Set` is modelled as a list used only for membership. -/
def scanDuplicates : List Nat → List Nat → List Nat × List Nat
  | [], seen => ([], seen)
  | v :: rest, seen =>
    if v ∈ seen then
      let p := scanDuplicates rest seen
      (v :: p.1, p.2)
    else scanDuplicates rest (v :: seen)

/-- The missing-value collection loop of `validateRotorPermutation`:
all values of `0..63` absent from `seen`, in increasing order. -/
def missingFrom (seen : List Nat) : List Nat :=
  (List.range 64).filter (fun i => decide (i ∉ seen))

/-- `validateRotorPermutation` in `validation.ts`: length check, per-element
range check (first offender), then all duplicates, then all missing
values. -/
def validateRotorPermutation (p : List Nat) : Except VError Unit :=
  if p.length ≠ 64 then .error (.invalidLength p.length)
  else match firstOutOfRange p 0 with
  | some iv => .error (.outOfRangeElement iv.1 iv.2)
  | none =>
    let dups := (scanDuplicates p []).1
    if dups ≠ [] then .error (.duplicateValues dups)
    else
      let miss := missingFrom (scanDuplicates p []).2
      if miss ≠ [] then .error (.missingValues miss)
      else .ok ()

/-- `validateRotorPosition` in `validation.ts` (integrality check dropped,
see header). -/
def validateRotorPosition (position : Int) : Except VError Unit :=
  if position < ROTOR_POSITION_MIN ∨ ROTOR_POSITION_MAX < position then
    .error (.positionOutOfRange position)
  else .ok ()

/-- `RotorConfig` from `types.ts` (behaviour-relevant fields). -/
structure RotorConfig where
  id : String
  name : String
  permutation : List Nat
  deriving DecidableEq

/-- The blank-string test `!s || s.trim().length === 0` used by
`validateRotorConfig`: a string is blank exactly when all its characters
are whitespace (which covers the empty string). -/
def isBlankString (s : String) : Bool :=
  s.data.all (fun c => c.isWhitespace)

/-- `validateRotorConfig` in `validation.ts`: non-blank id and name, then
the permutation (date checks dropped, see header). -/
def validateRotorConfig (config : RotorConfig) : Except VError Unit :=
  if isBlankString config.id then .error .invalidId
  else if isBlankString config.name then .error .invalidName
  else validateRotorPermutation config.permutation

/-- `EncryptionConfig` from `types.ts`. -/
structure EncryptionConfig where
  rotorIds : List String
  startPositions : List Int
  deriving DecidableEq

/-- The `forEach` over start positions in `validateEncryptionConfig`,
which throws at the first invalid position with its index. -/
def firstInvalidPosition : List Int → Nat → Option Nat
  | [], _ => none
  | p :: rest, i =>
    if p < ROTOR_POSITION_MIN ∨ ROTOR_POSITION_MAX < p then some i
    else firstInvalidPosition rest (i + 1)

/-- `validateEncryptionConfig` in `validation.ts`: nonempty, at most
`MAX_ACTIVE_ROTORS`, matching lengths, every position valid, no duplicate
rotor ids (the `Set` size comparison is modelled via `dedup`). -/
def validateEncryptionConfig (config : EncryptionConfig) : Except VError Unit :=
  if config.rotorIds.length = 0 then .error .noRotorsSpecified
  else if MAX_ACTIVE_ROTORS < config.rotorIds.length then
    .error (.tooManyRotors config.rotorIds.length)
  else if config.startPositions.length ≠ config.rotorIds.length then
    .error (.positionCountMismatch config.startPositions.length config.rotorIds.length)
  else match firstInvalidPosition config.startPositions 0 with
  | some i => .error (.invalidStartPosition i)
  | none =>
    if config.rotorIds.dedup.length ≠ config.rotorIds.length then
      .error .duplicateRotorIds
    else .ok ()

/-- The invalid-character collection loop of `validateEncryptableText`:
out-of-alphabet characters in order of first occurrence. -/
def collectInvalidChars (text : List Char) : List Char :=
  text.foldl (fun acc c =>
    if isValidCharacter c then acc
    else if c ∈ acc then acc else acc ++ [c]) []

/-- `validateEncryptableText` in `validation.ts`: throws
`INVALID_CHARACTERS` when the text contains any out-of-alphabet
character. -/
def validateEncryptableText (text : List Char) : Except VError Unit :=
  if collectInvalidChars text ≠ [] then
    .error (.invalidCharacters (collectInvalidChars text))
  else .ok ()

/-- `positionToIndex` in `validation.ts`. -/
def positionToIndex (position : Int) : Except VError Nat := do
  validateRotorPosition position
  .ok (position - 1).toNat

/-- `indexToPosition` in `validation.ts`. -/
def indexToPosition (index : Int) : Except VError Int :=
  if index < 0 ∨ 63 < index then .error (.invalidArrayIndex index)
  else .ok (index + 1)

/-- `ActiveRotor` from `types.ts`. -/
structure ActiveRotor where
  config : RotorConfig
  position : Int
  stepCount : Nat
  deriving DecidableEq

/-- `createActiveRotor` in `core.ts`: validates the rotor configuration
only, and stores the start position verbatim. -/
def createActiveRotor (config : RotorConfig) (startPosition : Int) :
    Except VError ActiveRotor := do
  validateRotorConfig config
  .ok { config := config, position := startPosition, stepCount := 0 }

/-- `stepRotor` in `core.ts`. -/
def stepRotor (rotor : ActiveRotor) : ActiveRotor :=
  { rotor with
    position := if rotor.position = 64 then 1 else rotor.position + 1
    stepCount := rotor.stepCount + 1 }

/-- `encryptCharacterThroughRotor` in `core.ts`.  The permutation lookup
`permutation[adjustedInputIndex]` is modelled with `get?`; the `none`
branch corresponds to an out-of-bounds read of an unvalidated permutation.
`(permutedIndex - rotorOffset + 64) % 64` is computed as
`(permutedIndex + 64 - rotorOffset) % 64`, which agrees on `Nat` since the
offset is at most 63. -/
def encryptCharacterThroughRotor (char : Char) (rotor : ActiveRotor) :
    Except VError Char :=
  if isValidCharacter char then do
    let inputIndex ← charToIndex [char]
    let rotorOffset ← positionToIndex rotor.position
    let adjustedInputIndex := (inputIndex + rotorOffset) % 64
    match rotor.config.permutation.get? adjustedInputIndex with
    | none => .error (.permutationOutputNotFound adjustedInputIndex)
    | some permutedIndex =>
      let finalOutputIndex := (permutedIndex + 64 - rotorOffset) % 64
      indexToChar (finalOutputIndex : Int)
  else .error (.cannotEncryptInvalidChar char)

/-- `decryptCharacterThroughRotor` in `core.ts`.  The JS
`permutation.indexOf(adjustedOutputIndex) === -1` check is modelled as a
membership test guarding `List.indexOf`. -/
def decryptCharacterThroughRotor (char : Char) (rotor : ActiveRotor) :
    Except VError Char :=
  if isValidCharacter char then do
    let outputIndex ← charToIndex [char]
    let rotorOffset ← positionToIndex rotor.position
    let adjustedOutputIndex := (outputIndex + rotorOffset) % 64
    let permutation := rotor.config.permutation
    if adjustedOutputIndex ∈ permutation then
      let inputIndex := permutation.indexOf adjustedOutputIndex
      let finalInputIndex := (inputIndex + 64 - rotorOffset) % 64
      indexToChar (finalInputIndex : Int)
    else .error (.permutationOutputNotFound adjustedOutputIndex)
  else .error (.cannotDecryptInvalidChar char)

/-- The stepping cascade of `encryptCharacter`/`decryptCharacter` in
`core.ts`, on the reversed rotor list (rightmost rotor first): the head is
stepped unconditionally; while a just-stepped rotor's new step count is a
multiple of 64, its left neighbour is stepped as well. -/
def stepCascadeRev : List ActiveRotor → List ActiveRotor
  | [] => []
  | r :: rest =>
    let r' := stepRotor r
    if r'.stepCount % 64 = 0 then r' :: stepCascadeRev rest
    else r' :: rest

/-- Step-the-rightmost-rotor-and-cascade, in source rotor order (the
shared state update of `encryptCharacter` and `decryptCharacter`). -/
def stepPipeline (rotors : List ActiveRotor) : List ActiveRotor :=
  (stepCascadeRev rotors.reverse).reverse

/-- `encryptCharacter` in `core.ts`: forward transforms left-to-right at
the current positions, then step the rightmost rotor and cascade.  The
in-place mutation of the rotor array is modelled by returning the updated
list. -/
def encryptCharacter (char : Char) (rotors : List ActiveRotor) :
    Except VError (Char × List ActiveRotor) :=
  if rotors.isEmpty then .error .noRotors
  else do
    let result ← rotors.foldlM (fun ch rotor => encryptCharacterThroughRotor ch rotor) char
    .ok (result, stepPipeline rotors)

/-- `decryptCharacter` in `core.ts`: step the rightmost rotor and cascade
first, then inverse transforms right-to-left at the (already stepped)
positions (the `for (let i = rotors.length - 1; i >= 0; i--)` loop is a
left fold over the reversed rotor list). -/
def decryptCharacter (char : Char) (rotors : List ActiveRotor) :
    Except VError (Char × List ActiveRotor) :=
  if rotors.isEmpty then .error .noRotors
  else
    let stepped := stepPipeline rotors
    do
      let result ← stepped.reverse.foldlM
        (fun ch rotor => decryptCharacterThroughRotor ch rotor) char
      .ok (result, stepped)

/-- `CryptographyResult` from `types.ts`.  `warnings` keeps the skipped
characters (the JS strings wrap each one in a fixed message); the constant
`obfuscationApplied: false` field is omitted. -/
structure CryptographyResult where
  result : List Char
  finalPositions : List Int
  charactersProcessed : Nat
  warnings : List Char
  deriving DecidableEq

/-- The rotor-creation `map` shared by `encryptText` and `decryptText`:
look each configured id up and build an active rotor at the matching start
position.  (`rotorIds.map((id, i) => ... startPositions[i])` is modelled
via `zip`; the two lists have equal length once the configuration has been
validated.) -/
def createActiveRotors (config : EncryptionConfig)
    (availableRotors : String → Option RotorConfig) :
    Except VError (List ActiveRotor) :=
  (config.rotorIds.zip config.startPositions).mapM (fun p =>
    match availableRotors p.1 with
    | none => .error (.rotorNotFound p.1)
    | some rotorConfig => createActiveRotor rotorConfig p.2)

/-- The character loop of `encryptText`: in-alphabet characters go through
the pipeline, out-of-alphabet characters are skipped and recorded. -/
def encryptLoop : List Char → List ActiveRotor →
    Except VError (List Char × List Char × List ActiveRotor)
  | [], rotors => .ok ([], [], rotors)
  | c :: cs, rotors =>
    if isValidCharacter c then do
      let r ← encryptCharacter c rotors
      let rest ← encryptLoop cs r.2
      .ok (r.1 :: rest.1, rest.2.1, rest.2.2)
    else do
      let rest ← encryptLoop cs rotors
      .ok (rest.1, c :: rest.2.1, rest.2.2)

/-- The character loop of `decryptText`, identical in shape to
`encryptLoop`. -/
def decryptLoop : List Char → List ActiveRotor →
    Except VError (List Char × List Char × List ActiveRotor)
  | [], rotors => .ok ([], [], rotors)
  | c :: cs, rotors =>
    if isValidCharacter c then do
      let r ← decryptCharacter c rotors
      let rest ← decryptLoop cs r.2
      .ok (r.1 :: rest.1, rest.2.1, rest.2.2)
    else do
      let rest ← decryptLoop cs rotors
      .ok (rest.1, c :: rest.2.1, rest.2.2)

/-- `encryptText` in `core.ts`. -/
def encryptText (text : List Char) (config : EncryptionConfig)
    (availableRotors : String → Option RotorConfig) :
    Except VError CryptographyResult := do
  validateEncryptionConfig config
  validateEncryptableText text
  let activeRotors ← createActiveRotors config availableRotors
  let r ← encryptLoop text activeRotors
  .ok { result := r.1
        finalPositions := r.2.2.map (·.position)
        charactersProcessed := text.length
        warnings := r.2.1 }

/-- `decryptText` in `core.ts`. -/
def decryptText (ciphertext : List Char) (config : EncryptionConfig)
    (availableRotors : String → Option RotorConfig) :
    Except VError CryptographyResult := do
  validateEncryptionConfig config
  validateEncryptableText ciphertext
  let activeRotors ← createActiveRotors config availableRotors
  let r ← decryptLoop ciphertext activeRotors
  .ok { result := r.1
        finalPositions := r.2.2.map (·.position)
        charactersProcessed := ciphertext.length
        warnings := r.2.1 }

deriving instance DecidableEq for Except

/-- A rotor state whose permutation passes the source validator and whose
position is in the user-facing range: the well-formedness invariant
maintained by the text codec. -/
def ValidRotor (r : ActiveRotor) : Prop :=
  validateRotorPermutation r.config.permutation = .ok () ∧
    1 ≤ r.position ∧ r.position ≤ 64

instance (r : ActiveRotor) : Decidable (ValidRotor r) := by
  unfold ValidRotor; infer_instance

/-! Concrete instances used by counterexamples and witnesses. -/

/-- A valid permutation that swaps indices 0 and 1 and fixes the rest.
Unlike the shift and identity rotors of the repository's test-suite, its
conjugates by rotation differ from each other, so it separates the rotor
positions. -/
def swapPerm : List Nat := [1, 0] ++ (List.range 64).drop 2

/-- A rotor definition for `swapPerm`. -/
def swapRotor : RotorConfig :=
  { id := "swap", name := "Swap Rotor", permutation := swapPerm }

/-- A rotor lookup that knows only `swapRotor`. -/
def swapLookup : String → Option RotorConfig :=
  fun s => if s = "swap" then some swapRotor else none

/-- A single-rotor encryption configuration for `swapRotor`, start
position 1. -/
def oneRotorConfig : EncryptionConfig :=
  { rotorIds := ["swap"], startPositions := [1] }

/-- `swapRotor` as an active rotor at start position 1. -/
def swapR0 : ActiveRotor := { config := swapRotor, position := 1, stepCount := 0 }

/-- A 64-element array that is missing the value 37 and duplicates the
value 10 (the identity assignment except at index 37). -/
def permMissing37 : List Nat := (List.range 64).map (fun i => if i = 37 then 10 else i)

/-- The identity permutation. -/
def idPerm : List Nat := List.range 64

/-- An identity rotor definition (mirrors `createIdentityRotor` from
`generator.ts`). -/
def idRotor : RotorConfig :=
  { id := "rotor1", name := "Identity Rotor", permutation := idPerm }

/-- A rotor lookup that knows only `idRotor`. -/
def idLookup : String → Option RotorConfig :=
  fun s => if s = "rotor1" then some idRotor else none

/-- A single-rotor encryption configuration for `idRotor`, start
position 1. -/
def idCfg : EncryptionConfig := { rotorIds := ["rotor1"], startPositions := [1] }

/-- A two-rotor pipeline (identity rotor left, swap rotor right), both at
position 1 with step count 0. -/
def rotorsW : List ActiveRotor :=
  [{ config := idRotor, position := 1, stepCount := 0 },
   { config := swapRotor, position := 1, stepCount := 0 }]

/-- Whether a validation error names `v` among the missing values. -/
def errorMentionsMissing (e : VError) (v : Nat) : Bool :=
  match e with
  | .missingValues l => decide (v ∈ l)
  | _ => false

/-- Whether a validation error names `v` among the duplicate values. -/
def errorMentionsDuplicate (e : VError) (v : Nat) : Bool :=
  match e with
  | .duplicateValues l => decide (v ∈ l)
  | _ => false

/-! ### Basic facts about the alphabet -/

theorem CHARSET_length : CHARSET.length = 64 := by decide

theorem CHARSET_nodup : CHARSET.Nodup := by decide

/-! ### Claims C1, C2, C3: evaluations at failing inputs -/

/-- Claim C1: the spec states that decrypting the output of `encryptText`
with the same configuration and start positions returns the original
plaintext.  The code violates this: with the valid swap rotor at start
position 1, encrypting `"A"` yields `"B"`, but decrypting `"B"` yields
`"B"`, not `"A"` (decryption steps the rotors before inverse-transforming,
so it inverts at position 2 what was encrypted at position 1). -/
theorem C1_roundtrip_fails_on_swap_rotor :
    (encryptText ['A'] oneRotorConfig swapLookup).map (fun r => r.result) = .ok ['B'] ∧
    (decryptText ['B'] oneRotorConfig swapLookup).map (fun r => r.result) = .ok ['B'] ∧
    (['B'] : List Char) ≠ ['A'] := by decide

/-- Claim C2: the spec states that decode applies its inverse transforms at
the same rotor positions at which encode applied the forward transforms
for the same character index.  The code violates this for the very first
character: encode transforms at position 1 (and only then steps to
position 2), while `decryptCharacter` steps first and inverse-transforms
at position 2 — the single-rotor inverse at the encoder's position 1 would
return `'A'`, but `decryptCharacter` returns `'B'`. -/
theorem C2_decode_transforms_at_stepped_positions :
    encryptCharacter 'A' [swapR0] =
      .ok ('B', [{ config := swapRotor, position := 2, stepCount := 1 }]) ∧
    decryptCharacter 'B' [swapR0] =
      .ok ('B', [{ config := swapRotor, position := 2, stepCount := 1 }]) ∧
    decryptCharacterThroughRotor 'B' swapR0 = .ok 'A' ∧
    (stepPipeline [swapR0]).map (fun r => r.position) ≠ [swapR0].map (fun r => r.position) := by
  decide

/-- Claim C3: the spec states that out-of-alphabet characters never raise
an error and are skipped with a warning.  The code violates this:
`encryptText`/`decryptText` call `validateEncryptableText` first, which
throws `INVALID_CHARACTERS` for the text `"A!"` under a perfectly valid
configuration, so the in-loop skip-and-warn branch is unreachable. -/
theorem C3_out_of_alphabet_raises :
    encryptText ['A', '!'] oneRotorConfig swapLookup = .error (.invalidCharacters ['!']) ∧
    decryptText ['A', '!'] oneRotorConfig swapLookup = .error (.invalidCharacters ['!']) := by
  decide

/-! ### Claim C4: duplicate/missing reporting of the permutation validator -/

/-- Claim C4 (counterexample): for the 64-element permutation that is
missing 37 and duplicates 10, the rejection error is `DUPLICATE_VALUES`
naming only the duplicate 10; no error mentions the missing value 37,
contrary to the claim. -/
theorem C4_counterexample :
    validateRotorPermutation permMissing37 = .error (.duplicateValues [10]) ∧
    errorMentionsDuplicate (.duplicateValues [10]) 10 = true ∧
    errorMentionsMissing (.duplicateValues [10]) 37 = false := by decide

theorem firstOutOfRange_eq_none {l : List Nat} :
    ∀ {i : Nat}, firstOutOfRange l i = none ↔ ∀ v ∈ l, v ≤ 63 := by
  induction l with
  | nil => simp [firstOutOfRange]
  | cons a rest ih =>
    intro i
    by_cases h : 63 < a
    · simp [firstOutOfRange, h]
    · simp [firstOutOfRange, h, ih]; omega

theorem scanDuplicates_snd_mem (l : List Nat) :
    ∀ (seen : List Nat) (v : Nat),
      v ∈ (scanDuplicates l seen).2 ↔ v ∈ l ∨ v ∈ seen := by
  induction l with
  | nil => simp [scanDuplicates]
  | cons a rest ih =>
    intro seen v
    by_cases h : a ∈ seen
    · rw [show scanDuplicates (a :: rest) seen =
        ((a :: (scanDuplicates rest seen).1, (scanDuplicates rest seen).2)) from by
          simp [scanDuplicates, h]]
      simp only [ih, List.mem_cons]
      constructor
      · rintro (hr | hs)
        · exact Or.inl (Or.inr hr)
        · exact Or.inr hs
      · rintro ((rfl | hr) | hs)
        · exact Or.inr h
        · exact Or.inl hr
        · exact Or.inr hs
    · rw [show scanDuplicates (a :: rest) seen = scanDuplicates rest (a :: seen) from by
        simp [scanDuplicates, h]]
      rw [ih]
      simp only [List.mem_cons]
      tauto

theorem scanDuplicates_fst_mem (l : List Nat) :
    ∀ (seen : List Nat) (v : Nat),
      v ∈ (scanDuplicates l seen).1 ↔ v ∈ l ∧ (v ∈ seen ∨ 2 ≤ l.count v) := by
  induction l with
  | nil => simp [scanDuplicates]
  | cons a rest ih =>
    intro seen v
    by_cases h : a ∈ seen
    · rw [show scanDuplicates (a :: rest) seen =
        ((a :: (scanDuplicates rest seen).1, (scanDuplicates rest seen).2)) from by
          simp [scanDuplicates, h]]
      simp only [List.mem_cons, ih]
      by_cases hv : v = a
      · subst hv
        simp [h]
      · have hne : a ≠ v := fun hh => hv hh.symm
        have hcount : (a :: rest).count v = rest.count v := by
          simp [List.count_cons, hne]
        simp only [hv, false_or, hcount]
    · rw [show scanDuplicates (a :: rest) seen = scanDuplicates rest (a :: seen) from by
        simp [scanDuplicates, h]]
      rw [ih]
      by_cases hv : v = a
      · rw [← hv] at h ⊢
        have hcount : (v :: rest).count v = rest.count v + 1 := by
          simp [List.count_cons]
        constructor
        · rintro ⟨hr, _⟩
          have hpos : 1 ≤ rest.count v := List.count_pos_iff.mpr hr
          exact ⟨List.mem_cons_of_mem _ hr, Or.inr (by omega)⟩
        · rintro ⟨_, hor⟩
          rcases hor with hs | hc
          · exact absurd hs h
          · rw [hcount] at hc
            have hr : v ∈ rest := List.count_pos_iff.mp (by omega)
            exact ⟨hr, Or.inl (List.mem_cons_self _ _)⟩
      · have hne : a ≠ v := fun hh => hv hh.symm
        have hcount : (a :: rest).count v = rest.count v := by
          simp [List.count_cons, hne]
        simp only [List.mem_cons, hv, false_or, hcount]

theorem scanDuplicates_fst_eq_nil {l : List Nat} :
    (scanDuplicates l []).1 = [] ↔ l.Nodup := by
  rw [List.eq_nil_iff_forall_not_mem, List.nodup_iff_count_le_one]
  constructor
  · intro h a
    by_contra hc
    push_neg at hc
    have ha : a ∈ l := List.count_pos_iff.mp (by omega)
    exact h a ((scanDuplicates_fst_mem l [] a).mpr ⟨ha, Or.inr (by omega)⟩)
  · intro h v hv
    rcases (scanDuplicates_fst_mem l [] v).mp hv with ⟨_, hor⟩
    rcases hor with hs | hc
    · simp at hs
    · have := h v
      omega

theorem missingFrom_eq_nil {seen : List Nat} :
    missingFrom seen = [] ↔ ∀ i < 64, i ∈ seen := by
  unfold missingFrom
  rw [List.filter_eq_nil_iff]
  simp [List.mem_range]

theorem validateRotorPermutation_ok_iff {p : List Nat} :
    validateRotorPermutation p = .ok () ↔
      p.length = 64 ∧ (∀ v ∈ p, v ≤ 63) ∧ p.Nodup ∧ (∀ i < 64, i ∈ p) := by
  unfold validateRotorPermutation
  by_cases hlen : p.length = 64
  · rw [if_neg (by omega)]
    cases hf : firstOutOfRange p 0 with
    | some iv =>
      have : ¬ ∀ v ∈ p, v ≤ 63 := by
        intro hall
        rw [firstOutOfRange_eq_none.mpr hall] at hf
        cases hf
      simp [this, hlen]
    | none =>
      have hle : ∀ v ∈ p, v ≤ 63 := firstOutOfRange_eq_none.mp hf
      by_cases hd : (scanDuplicates p []).1 = []
      · rw [if_neg (by simp [hd])]
        have hnd : p.Nodup := scanDuplicates_fst_eq_nil.mp hd
        by_cases hm : missingFrom (scanDuplicates p []).2 = []
        · rw [if_neg (by simp [hm])]
          have hmem : ∀ i < 64, i ∈ p := by
            intro i hi
            have := missingFrom_eq_nil.mp hm i hi
            rcases (scanDuplicates_snd_mem p [] i).mp this with h | h
            · exact h
            · simp at h
          exact iff_of_true rfl ⟨hlen, hle, hnd, hmem⟩
        · rw [if_pos (by simp [hm])]
          have : ¬ ∀ i < 64, i ∈ p := by
            intro hall
            apply hm
            rw [missingFrom_eq_nil]
            intro i hi
            exact (scanDuplicates_snd_mem p [] i).mpr (Or.inl (hall i hi))
          simp [this]
      · rw [if_pos (by simp [hd])]
        have : ¬ p.Nodup := fun hnd => hd (scanDuplicates_fst_eq_nil.mpr hnd)
        simp [this]
  · rw [if_pos (by omega)]
    simp [hlen]

/-- Claim C4 (amended): `validateRotorPermutation` reports all offending
values of the first failing category only.  For a 64-element permutation
with in-range elements that contains duplicates, the rejection error is
`DUPLICATE_VALUES` listing exactly the values occurring more than once;
the missing-value check (which would name 37 in the claim's example) is
never reached when a duplicate exists. -/
theorem C4_all_duplicates_reported (p : List Nat) (hlen : p.length = 64)
    (hle : ∀ v ∈ p, v ≤ 63) (hdup : ¬ p.Nodup) :
    validateRotorPermutation p = .error (.duplicateValues (scanDuplicates p []).1) ∧
    ∀ v, v ∈ (scanDuplicates p []).1 ↔ 2 ≤ p.count v := by
  have hd : (scanDuplicates p []).1 ≠ [] :=
    fun h => hdup (scanDuplicates_fst_eq_nil.mp h)
  constructor
  · unfold validateRotorPermutation
    rw [if_neg (by omega), firstOutOfRange_eq_none.mpr hle, if_pos hd]
  · intro v
    rw [scanDuplicates_fst_mem]
    simp only [List.not_mem_nil, false_or]
    constructor
    · rintro ⟨_, hc⟩; exact hc
    · intro hc
      exact ⟨List.count_pos_iff.mp (by omega), hc⟩

/-- Witness for `C4_all_duplicates_reported` at the claim's example
permutation. -/
theorem C4_all_duplicates_reported_witness :
    permMissing37.length = 64 ∧ (∀ v ∈ permMissing37, v ≤ 63) ∧
    ¬ permMissing37.Nodup ∧
    validateRotorPermutation permMissing37 =
      .error (.duplicateValues (scanDuplicates permMissing37 []).1) :=
  ⟨by decide, by decide, by decide,
    (C4_all_duplicates_reported permMissing37 (by decide) (by decide) (by decide)).1⟩

/-! ### Except bind reduction helpers -/

theorem ok_bind {ε α β : Type} (a : α) (f : α → Except ε β) :
    (Except.ok a : Except ε α) >>= f = f a := rfl

theorem error_bind {ε α β : Type} (e : ε) (f : α → Except ε β) :
    (Except.error e : Except ε α) >>= f = .error e := rfl

/-! ### Symbol codec lemmas -/

theorem charToIndex_of_mem {c : Char} (h : c ∈ CHARSET) :
    charToIndex [c] = .ok (CHARSET.indexOf c) := by
  simp [charToIndex, h]

theorem indexOf_lt_of_mem {c : Char} (h : c ∈ CHARSET) : CHARSET.indexOf c < 64 := by
  have := List.indexOf_lt_length.mpr h
  rwa [CHARSET_length] at this

theorem indexToChar_of_lt {i : Nat} (h : i < CHARSET.length) :
    indexToChar (i : Int) = .ok (CHARSET[i]) := by
  have hcl : CHARSET.length = 64 := CHARSET_length
  have hcond : 0 ≤ (i : Int) ∧ (i : Int) < (CHARSET.length : Int) := by
    constructor
    · exact Int.ofNat_nonneg i
    · exact_mod_cast h
  rw [indexToChar, dif_pos hcond]
  simp

theorem charToIndex_getElem {i : Nat} (h : i < CHARSET.length) :
    charToIndex [CHARSET[i]] = .ok i := by
  rw [charToIndex_of_mem (CHARSET.getElem_mem h)]
  exact congrArg Except.ok (List.indexOf_getElem CHARSET_nodup i h)

/-- Claim C8: `charToIndex` and `indexToChar` are exact inverses over the
alphabet, `charToIndex` fails for anything that is not exactly one
alphabet symbol, and `indexToChar` fails for any index outside 0..63. -/
theorem C8_symbol_codec :
    (∀ i : Nat, i < 64 → (indexToChar (i : Int)).bind (fun c => charToIndex [c]) = .ok i) ∧
    (∀ c ∈ CHARSET, (charToIndex [c]).bind (fun j => indexToChar (j : Int)) = .ok c) ∧
    (∀ s : List Char, s.length ≠ 1 → ∃ e, charToIndex s = .error e) ∧
    (∀ c : Char, c ∉ CHARSET → ∃ e, charToIndex [c] = .error e) ∧
    (∀ i : Int, i < 0 ∨ 64 ≤ i → ∃ e, indexToChar i = .error e) := by
  refine ⟨by decide, by decide, ?_, ?_, ?_⟩
  · intro s hs
    match s with
    | [] => exact ⟨_, rfl⟩
    | [c] => simp at hs
    | c :: d :: t => exact ⟨_, rfl⟩
  · intro c hc
    exact ⟨.charNotInCharset c, by simp [charToIndex, hc]⟩
  · intro i hi
    refine ⟨.indexOutOfRange i, ?_⟩
    rw [indexToChar, dif_neg]
    simp only [CHARSET_length, not_and, not_lt]
    intro h0
    omega

/-- Witness for `C8_symbol_codec` at concrete inputs. -/
theorem C8_symbol_codec_witness :
    ((5 : Nat) < 64 ∧
      (indexToChar ((5 : Nat) : Int)).bind (fun c => charToIndex [c]) = .ok 5) ∧
    ('A' ∈ CHARSET ∧ (charToIndex ['A']).bind (fun j => indexToChar (j : Int)) = .ok 'A') ∧
    (([] : List Char).length ≠ 1 ∧ ∃ e, charToIndex [] = .error e) ∧
    ('!' ∉ CHARSET ∧ ∃ e, charToIndex ['!'] = .error e) ∧
    (((64 : Int) < 0 ∨ 64 ≤ (64 : Int)) ∧ ∃ e, indexToChar 64 = .error e) :=
  ⟨⟨by decide, C8_symbol_codec.1 5 (by decide)⟩,
    ⟨by decide, C8_symbol_codec.2.1 'A' (by decide)⟩,
    ⟨by decide, C8_symbol_codec.2.2.1 [] (by decide)⟩,
    ⟨by decide, C8_symbol_codec.2.2.2.1 '!' (by decide)⟩,
    ⟨by decide, C8_symbol_codec.2.2.2.2 64 (by decide)⟩⟩

/-! ### Claim C10: start positions are not validated at rotor creation -/

/-- Claim C10: `createActiveRotor` validates only the rotor definition,
never the start position: for every valid rotor configuration and every
integer start position (including 0 and 65) it succeeds and stores the
position verbatim with step count 0; an out-of-range position is rejected
only later, when a character is transformed through the rotor
(`positionToIndex` fails inside `encryptCharacterThroughRotor`). -/
theorem C10_start_position_not_validated (config : RotorConfig) (pos : Int)
    (hcfg : validateRotorConfig config = .ok ()) :
    createActiveRotor config pos =
      .ok { config := config, position := pos, stepCount := 0 } ∧
    ((pos < 1 ∨ 64 < pos) → ∀ c, isValidCharacter c = true →
      encryptCharacterThroughRotor c { config := config, position := pos, stepCount := 0 } =
        .error (.positionOutOfRange pos)) := by
  constructor
  · unfold createActiveRotor
    rw [hcfg]
    rfl
  · intro hrange c hvalid
    have hc : c ∈ CHARSET := by simpa [isValidCharacter] using hvalid
    have hpt : positionToIndex pos = .error (.positionOutOfRange pos) := by
      unfold positionToIndex validateRotorPosition ROTOR_POSITION_MIN ROTOR_POSITION_MAX
      rw [if_pos hrange]
      rfl
    unfold encryptCharacterThroughRotor
    rw [if_pos hvalid, charToIndex_of_mem hc, ok_bind, hpt, error_bind]

/-! ### Claim C5: the single-rotor inverse transform -/

theorem positionToIndex_of_range {pos : Int} (hp1 : 1 ≤ pos) (hp2 : pos ≤ 64) :
    positionToIndex pos = .ok (pos - 1).toNat := by
  unfold positionToIndex validateRotorPosition ROTOR_POSITION_MIN ROTOR_POSITION_MAX
  rw [if_neg (by omega)]
  rfl

/-- Claim C5: for every alphabet character `c`, every rotor whose
permutation passes the source validator, and every position in 1..64,
decrypting through the rotor the result of encrypting `c` at the same
position returns `c`. -/
theorem C5_single_rotor_inverse (r : ActiveRotor) (c : Char)
    (hperm : validateRotorPermutation r.config.permutation = .ok ())
    (hp1 : 1 ≤ r.position) (hp2 : r.position ≤ 64) (hc : c ∈ CHARSET) :
    encryptCharacterThroughRotor c r >>=
      (fun m => decryptCharacterThroughRotor m r) = .ok c := by
  obtain ⟨hlen, hle, hnd, hmem⟩ := validateRotorPermutation_ok_iff.mp hperm
  have hval : isValidCharacter c = true := by simp [isValidCharacter, hc]
  have hpos_to : positionToIndex r.position = .ok (r.position - 1).toNat :=
    positionToIndex_of_range hp1 hp2
  have hoff : (r.position - 1).toNat ≤ 63 := by omega
  have hi : CHARSET.indexOf c < 64 := indexOf_lt_of_mem hc
  obtain ⟨m, hm_get⟩ : ∃ m, r.config.permutation.get?
      ((CHARSET.indexOf c + (r.position - 1).toNat) % 64) = some m := by
    rw [List.get?_eq_getElem?, List.getElem?_eq_getElem (by omega)]
    exact ⟨_, rfl⟩
  obtain ⟨hbound, hget⟩ := List.get?_eq_some.mp hm_get
  have hm_mem : m ∈ r.config.permutation := by
    rw [← hget]
    exact List.get_mem _ _ _
  have hm_le : m ≤ 63 := hle m hm_mem
  have ho : (m + 64 - (r.position - 1).toNat) % 64 < CHARSET.length := by
    rw [CHARSET_length]; omega
  have henc : encryptCharacterThroughRotor c r =
      .ok (CHARSET[(m + 64 - (r.position - 1).toNat) % 64]) := by
    unfold encryptCharacterThroughRotor
    rw [if_pos hval, charToIndex_of_mem hc]
    simp only [ok_bind]
    rw [hpos_to]
    simp only [ok_bind]
    rw [hm_get]
    exact indexToChar_of_lt ho
  rw [henc, ok_bind]
  have hvalm : isValidCharacter (CHARSET[(m + 64 - (r.position - 1).toNat) % 64]) = true := by
    simp [isValidCharacter]
  unfold decryptCharacterThroughRotor
  rw [if_pos hvalm, charToIndex_getElem ho]
  simp only [ok_bind]
  rw [hpos_to]
  simp only [ok_bind]
  have harith : ((m + 64 - (r.position - 1).toNat) % 64 + (r.position - 1).toNat) % 64 = m := by
    omega
  rw [harith, if_pos hm_mem]
  have hidx : r.config.permutation.indexOf m =
      (CHARSET.indexOf c + (r.position - 1).toNat) % 64 := by
    rw [← hget]
    exact List.get_indexOf hnd _
  rw [hidx]
  have harith2 :
      ((CHARSET.indexOf c + (r.position - 1).toNat) % 64 + 64 - (r.position - 1).toNat) % 64 =
        CHARSET.indexOf c := by
    omega
  rw [harith2]
  rw [indexToChar_of_lt (List.indexOf_lt_length.mpr hc)]
  exact congrArg Except.ok (List.getElem_indexOf (List.indexOf_lt_length.mpr hc))

/-- Witness for `C5_single_rotor_inverse`: the swap rotor at position 1
and the character `'A'`. -/
theorem C5_single_rotor_inverse_witness :
    validateRotorPermutation swapR0.config.permutation = .ok () ∧
    1 ≤ swapR0.position ∧ swapR0.position ≤ 64 ∧ 'A' ∈ CHARSET ∧
    encryptCharacterThroughRotor 'A' swapR0 >>=
      (fun m => decryptCharacterThroughRotor m swapR0) = .ok 'A' :=
  ⟨by decide, by decide, by decide, by decide,
    C5_single_rotor_inverse swapR0 'A' (by decide) (by decide) (by decide) (by decide)⟩

/-- Witness for `C10_start_position_not_validated`: the identity rotor at
the out-of-range start position 65. -/
theorem C10_start_position_not_validated_witness :
    validateRotorConfig idRotor = .ok () ∧
    createActiveRotor idRotor 65 =
      .ok { config := idRotor, position := 65, stepCount := 0 } ∧
    ((65 : Int) < 1 ∨ 64 < (65 : Int)) ∧ isValidCharacter 'A' = true ∧
    encryptCharacterThroughRotor 'A' { config := idRotor, position := 65, stepCount := 0 } =
      .error (.positionOutOfRange 65) :=
  ⟨by decide, (C10_start_position_not_validated idRotor 65 (by decide)).1,
    by decide, by decide,
    (C10_start_position_not_validated idRotor 65 (by decide)).2 (by decide) 'A' (by decide)⟩


/-! ### Claim C6: stepping cascade machinery -/

theorem stepRotor_stepCount (r : ActiveRotor) :
    (stepRotor r).stepCount = r.stepCount + 1 := rfl

theorem stepRotor_config (r : ActiveRotor) : (stepRotor r).config = r.config := rfl

theorem stepRotor_position (r : ActiveRotor) :
    (stepRotor r).position = if r.position = 64 then 1 else r.position + 1 := rfl

theorem stepRotor_valid {r : ActiveRotor} (h : ValidRotor r) : ValidRotor (stepRotor r) := by
  obtain ⟨hperm, hp1, hp2⟩ := h
  refine ⟨by rw [stepRotor_config]; exact hperm, ?_, ?_⟩ <;>
    rw [stepRotor_position] <;> split <;> omega

theorem stepCascadeRev_length (rs : List ActiveRotor) :
    (stepCascadeRev rs).length = rs.length := by
  induction rs with
  | nil => rfl
  | cons r rest ih =>
    simp only [stepCascadeRev]
    split <;> simp [ih]


theorem stepPipeline_length (rotors : List ActiveRotor) :
    (stepPipeline rotors).length = rotors.length := by
  unfold stepPipeline
  rw [List.length_reverse, stepCascadeRev_length, List.length_reverse]

theorem stepCascadeRev_counts (rs : List ActiveRotor) :
    ∀ N : Nat,
      rs.map ActiveRotor.stepCount = (List.range rs.length).map (fun d => N / 64 ^ d) →
      (stepCascadeRev rs).map ActiveRotor.stepCount =
        (List.range rs.length).map (fun d => (N + 1) / 64 ^ d) := by
  induction rs with
  | nil => intro N _; rfl
  | cons r rest ih =>
    intro N h
    rw [List.length_cons, List.range_succ_eq_map] at h ⊢
    simp only [List.map_cons, List.map_map] at h ⊢
    rw [List.cons_eq_cons] at h
    obtain ⟨h1, h2⟩ := h
    rw [pow_zero, Nat.div_one] at h1
    have hsc : (stepRotor r).stepCount = N + 1 := by rw [stepRotor_stepCount, h1]
    simp only [stepCascadeRev]
    by_cases hdvd : (stepRotor r).stepCount % 64 = 0
    · rw [if_pos hdvd]
      rw [hsc] at hdvd
      have hdvd64 : 64 ∣ N + 1 := Nat.dvd_of_mod_eq_zero hdvd
      have hsucc : (N + 1) / 64 = N / 64 + 1 := Nat.succ_div_of_dvd hdvd64
      rw [List.map_cons, List.cons_eq_cons]
      constructor
      · rw [hsc, pow_zero, Nat.div_one]
      · have hrest : rest.map ActiveRotor.stepCount =
            (List.range rest.length).map (fun d => (N / 64) / 64 ^ d) := by
          rw [h2]
          apply List.map_congr_left
          intro d _
          show N / 64 ^ (d + 1) = N / 64 / 64 ^ d
          rw [Nat.div_div_eq_div_mul, pow_succ, Nat.mul_comm]
        have := ih (N / 64) hrest
        rw [this]
        apply List.map_congr_left
        intro d _
        show (N / 64 + 1) / 64 ^ d = (N + 1) / 64 ^ (d + 1)
        rw [← hsucc, pow_succ, Nat.mul_comm, ← Nat.div_div_eq_div_mul]
    · rw [if_neg hdvd]
      rw [hsc] at hdvd
      have hndvd : ¬ 64 ∣ N + 1 := fun hd => hdvd (Nat.mod_eq_zero_of_dvd hd)
      have hsucc : (N + 1) / 64 = N / 64 := Nat.succ_div_of_not_dvd hndvd
      rw [List.map_cons, List.cons_eq_cons]
      constructor
      · rw [hsc, pow_zero, Nat.div_one]
      · rw [h2]
        apply List.map_congr_left
        intro d _
        show N / 64 ^ (d + 1) = (N + 1) / 64 ^ (d + 1)
        have e1 : N / 64 ^ (d + 1) = N / 64 / 64 ^ d := by
          rw [Nat.div_div_eq_div_mul, pow_succ, Nat.mul_comm]
        have e2 : (N + 1) / 64 ^ (d + 1) = (N + 1) / 64 / 64 ^ d := by
          rw [Nat.div_div_eq_div_mul, pow_succ, Nat.mul_comm]
        rw [e1, e2, hsucc]

theorem stepPipeline_counts (rotors : List ActiveRotor) (N : Nat)
    (h : rotors.reverse.map ActiveRotor.stepCount =
      (List.range rotors.length).map (fun d => N / 64 ^ d)) :
    (stepPipeline rotors).reverse.map ActiveRotor.stepCount =
      (List.range rotors.length).map (fun d => (N + 1) / 64 ^ d) := by
  unfold stepPipeline
  rw [List.reverse_reverse]
  have hlen : rotors.reverse.length = rotors.length := List.length_reverse _
  have := stepCascadeRev_counts rotors.reverse N (by rw [hlen]; exact h)
  rw [hlen] at this
  exact this

theorem encryptCharacter_ok_state {c : Char} {rotors : List ActiveRotor}
    {pr : Char × List ActiveRotor} (h : encryptCharacter c rotors = .ok pr) :
    pr.2 = stepPipeline rotors := by
  unfold encryptCharacter at h
  by_cases he : rotors.isEmpty
  · rw [if_pos he] at h; cases h
  · rw [if_neg he] at h
    cases hf : List.foldlM (fun ch rotor => encryptCharacterThroughRotor ch rotor) c rotors with
    | error e => rw [hf, error_bind] at h; cases h
    | ok x =>
      rw [hf, ok_bind] at h
      injection h with h1
      exact (congrArg Prod.snd h1).symm

theorem encryptLoop_counts (cs : List Char) :
    ∀ (N : Nat) (rotors : List ActiveRotor) (out warns : List Char)
      (rotors' : List ActiveRotor),
      (∀ c ∈ cs, isValidCharacter c = true) →
      rotors.reverse.map ActiveRotor.stepCount =
        (List.range rotors.length).map (fun d => N / 64 ^ d) →
      encryptLoop cs rotors = .ok (out, warns, rotors') →
      rotors'.reverse.map ActiveRotor.stepCount =
        (List.range rotors.length).map (fun d => (N + cs.length) / 64 ^ d) := by
  induction cs with
  | nil =>
    intro N rotors out warns rotors' _ hcounts hloop
    injection hloop with h
    have hrr : rotors = rotors' := congrArg (fun t => t.2.2) h
    rw [← hrr]
    simpa using hcounts
  | cons c cs ih =>
    intro N rotors out warns rotors' hvalid hcounts hloop
    have hvc : isValidCharacter c = true := hvalid c (List.mem_cons_self _ _)
    unfold encryptLoop at hloop
    rw [if_pos hvc] at hloop
    cases henc : encryptCharacter c rotors with
    | error e => rw [henc, error_bind] at hloop; cases hloop
    | ok pr =>
      rw [henc, ok_bind] at hloop
      cases hrest : encryptLoop cs pr.2 with
      | error e => rw [hrest, error_bind] at hloop; cases hloop
      | ok rest =>
        rw [hrest, ok_bind] at hloop
        injection hloop with h
        have hr2 : rest.2.2 = rotors' := congrArg (fun t => t.2.2) h
        have hstate : pr.2 = stepPipeline rotors := encryptCharacter_ok_state henc
        have hcounts1 : (stepPipeline rotors).reverse.map ActiveRotor.stepCount =
            (List.range rotors.length).map (fun d => (N + 1) / 64 ^ d) :=
          stepPipeline_counts rotors N hcounts
        have hstep := ih (N + 1) pr.2 rest.1 rest.2.1 rest.2.2
          (fun x hx => hvalid x (List.mem_cons_of_mem _ hx))
          (by rw [hstate, stepPipeline_length]; exact hcounts1) hrest
        rw [hr2, hstate, stepPipeline_length] at hstep
        rw [List.length_cons, show N + (cs.length + 1) = N + 1 + cs.length from by omega]
        exact hstep

/-- Claim C6: for a pipeline of rotors each starting with step count 0 and
a sequence of processed in-alphabet characters, the step counts after the
run follow the odometer law: the rotor at distance `d` from the right end
has stepped exactly `(number of characters) / 64 ^ d` times.  In
particular the rightmost rotor advances by 1 per character, its left
neighbour once per 64 steps of the rightmost, and the carry nests across
longer pipelines. -/
theorem C6_stepping_cascade (cs : List Char) (rotors : List ActiveRotor)
    (out warns : List Char) (rotors' : List ActiveRotor)
    (hvalid : ∀ c ∈ cs, isValidCharacter c = true)
    (hzero : ∀ r ∈ rotors, r.stepCount = 0)
    (hloop : encryptLoop cs rotors = .ok (out, warns, rotors')) :
    rotors'.reverse.map ActiveRotor.stepCount =
      (List.range rotors.length).map (fun d => cs.length / 64 ^ d) := by
  have h0 : rotors.reverse.map ActiveRotor.stepCount =
      (List.range rotors.length).map (fun d => 0 / 64 ^ d) := by
    have hA : rotors.reverse.map ActiveRotor.stepCount =
        List.replicate rotors.length 0 :=
      List.eq_replicate_iff.mpr ⟨by simp, fun b hb => by
        obtain ⟨r, hr, hb⟩ := List.mem_map.mp hb
        rw [← hb]
        exact hzero r (List.mem_reverse.mp hr)⟩
    have hB : (List.range rotors.length).map (fun d => 0 / 64 ^ d) =
        List.replicate rotors.length 0 :=
      List.eq_replicate_iff.mpr ⟨by simp, fun b hb => by
        obtain ⟨d, _, hb⟩ := List.mem_map.mp hb
        rw [← hb, Nat.zero_div]⟩
    rw [hA, hB]
  have := encryptLoop_counts cs 0 rotors out warns rotors' hvalid h0 hloop
  simpa using this


/-- Witness for `C6_stepping_cascade`: two valid characters through the
two-rotor pipeline `rotorsW`; the rightmost rotor ends with step count 2,
the left one with 0 = 2 / 64. -/
theorem C6_stepping_cascade_witness :
    (∀ c ∈ (['A', 'B'] : List Char), isValidCharacter c = true) ∧
    (∀ r ∈ rotorsW, r.stepCount = 0) ∧
    encryptLoop ['A', 'B'] rotorsW =
      .ok (['B', 'B'], [],
        [{ config := idRotor, position := 1, stepCount := 0 },
         { config := swapRotor, position := 3, stepCount := 2 }]) ∧
    ([{ config := idRotor, position := 1, stepCount := 0 },
      { config := swapRotor, position := 3, stepCount := 2 }] :
        List ActiveRotor).reverse.map ActiveRotor.stepCount =
      (List.range rotorsW.length).map
        (fun d => (['A', 'B'] : List Char).length / 64 ^ d) :=
  ⟨by decide, by decide, by decide,
    C6_stepping_cascade ['A', 'B'] rotorsW ['B', 'B'] []
      [{ config := idRotor, position := 1, stepCount := 0 },
       { config := swapRotor, position := 3, stepCount := 2 }]
      (by decide) (by decide) (by decide)⟩


/-! ### Success of the transforms on valid rotors (towards C7 and C9) -/

theorem encryptThroughRotor_ok (r : ActiveRotor) (c : Char)
    (hv : ValidRotor r) (hc : c ∈ CHARSET) :
    ∃ m, m ∈ CHARSET ∧ encryptCharacterThroughRotor c r = .ok m := by
  obtain ⟨hperm, hp1, hp2⟩ := hv
  obtain ⟨hlen, hle, hnd, hmem⟩ := validateRotorPermutation_ok_iff.mp hperm
  have hval : isValidCharacter c = true := by simp [isValidCharacter, hc]
  have hpos_to := positionToIndex_of_range hp1 hp2
  have hoff : (r.position - 1).toNat ≤ 63 := by omega
  have hi : CHARSET.indexOf c < 64 := indexOf_lt_of_mem hc
  obtain ⟨m, hm_get⟩ : ∃ m, r.config.permutation.get?
      ((CHARSET.indexOf c + (r.position - 1).toNat) % 64) = some m := by
    rw [List.get?_eq_getElem?, List.getElem?_eq_getElem (by omega)]
    exact ⟨_, rfl⟩
  have ho : (m + 64 - (r.position - 1).toNat) % 64 < CHARSET.length := by
    rw [CHARSET_length]; omega
  refine ⟨CHARSET[(m + 64 - (r.position - 1).toNat) % 64], List.getElem_mem ho, ?_⟩
  unfold encryptCharacterThroughRotor
  rw [if_pos hval, charToIndex_of_mem hc]
  simp only [ok_bind]
  rw [hpos_to]
  simp only [ok_bind]
  rw [hm_get]
  exact indexToChar_of_lt ho

theorem decryptThroughRotor_ok (r : ActiveRotor) (c : Char)
    (hv : ValidRotor r) (hc : c ∈ CHARSET) :
    ∃ m, m ∈ CHARSET ∧ decryptCharacterThroughRotor c r = .ok m := by
  obtain ⟨hperm, hp1, hp2⟩ := hv
  obtain ⟨hlen, hle, hnd, hmem⟩ := validateRotorPermutation_ok_iff.mp hperm
  have hval : isValidCharacter c = true := by simp [isValidCharacter, hc]
  have hpos_to := positionToIndex_of_range hp1 hp2
  have hoff : (r.position - 1).toNat ≤ 63 := by omega
  have hi : CHARSET.indexOf c < 64 := indexOf_lt_of_mem hc
  have hadj_mem : (CHARSET.indexOf c + (r.position - 1).toNat) % 64 ∈
      r.config.permutation := hmem _ (by omega)
  have hidx_lt : r.config.permutation.indexOf
      ((CHARSET.indexOf c + (r.position - 1).toNat) % 64) < 64 := by
    have := List.indexOf_lt_length.mpr hadj_mem
    omega
  have hfi : (r.config.permutation.indexOf
        ((CHARSET.indexOf c + (r.position - 1).toNat) % 64) + 64 -
      (r.position - 1).toNat) % 64 < CHARSET.length := by
    rw [CHARSET_length]; omega
  refine ⟨CHARSET[(r.config.permutation.indexOf
      ((CHARSET.indexOf c + (r.position - 1).toNat) % 64) + 64 -
    (r.position - 1).toNat) % 64], List.getElem_mem hfi, ?_⟩
  unfold decryptCharacterThroughRotor
  rw [if_pos hval, charToIndex_of_mem hc]
  simp only [ok_bind]
  rw [hpos_to]
  simp only [ok_bind]
  rw [if_pos hadj_mem]
  exact indexToChar_of_lt hfi

theorem foldlM_through_ok (f : Char → ActiveRotor → Except VError Char)
    (hf : ∀ r c, ValidRotor r → c ∈ CHARSET → ∃ m, m ∈ CHARSET ∧ f c r = .ok m) :
    ∀ (rs : List ActiveRotor) (c : Char), (∀ r ∈ rs, ValidRotor r) → c ∈ CHARSET →
      ∃ m, m ∈ CHARSET ∧
        List.foldlM (fun ch rotor => f ch rotor) c rs = .ok m := by
  intro rs
  induction rs with
  | nil => intro c _ hc; exact ⟨c, hc, rfl⟩
  | cons r rest ih =>
    intro c hvalid hc
    obtain ⟨m1, hm1mem, hm1⟩ := hf r c (hvalid r (List.mem_cons_self _ _)) hc
    obtain ⟨m2, hm2mem, hm2⟩ :=
      ih m1 (fun x hx => hvalid x (List.mem_cons_of_mem _ hx)) hm1mem
    refine ⟨m2, hm2mem, ?_⟩
    rw [List.foldlM_cons, hm1, ok_bind, hm2]

theorem stepCascadeRev_valid (rs : List ActiveRotor) (h : ∀ r ∈ rs, ValidRotor r) :
    ∀ r ∈ stepCascadeRev rs, ValidRotor r := by
  induction rs with
  | nil => simp [stepCascadeRev]
  | cons a rest ih =>
    intro r hr
    simp only [stepCascadeRev] at hr
    split at hr
    · rcases List.mem_cons.mp hr with rfl | hr'
      · exact stepRotor_valid (h a (List.mem_cons_self _ _))
      · exact ih (fun x hx => h x (List.mem_cons_of_mem _ hx)) r hr'
    · rcases List.mem_cons.mp hr with rfl | hr'
      · exact stepRotor_valid (h a (List.mem_cons_self _ _))
      · exact h r (List.mem_cons_of_mem _ hr')

theorem stepPipeline_valid (rs : List ActiveRotor) (h : ∀ r ∈ rs, ValidRotor r) :
    ∀ r ∈ stepPipeline rs, ValidRotor r := by
  intro r hr
  unfold stepPipeline at hr
  rw [List.mem_reverse] at hr
  exact stepCascadeRev_valid rs.reverse (fun x hx => h x (List.mem_reverse.mp hx)) r hr

theorem encryptCharacter_ok (c : Char) (rs : List ActiveRotor) (hne : rs ≠ [])
    (hvalid : ∀ r ∈ rs, ValidRotor r) (hc : c ∈ CHARSET) :
    ∃ m, m ∈ CHARSET ∧ encryptCharacter c rs = .ok (m, stepPipeline rs) := by
  obtain ⟨m, hm, hfold⟩ := foldlM_through_ok encryptCharacterThroughRotor
    (fun r c hv hcc => encryptThroughRotor_ok r c hv hcc) rs c hvalid hc
  refine ⟨m, hm, ?_⟩
  unfold encryptCharacter
  rw [if_neg (by simpa [List.isEmpty_iff] using hne), hfold, ok_bind]

theorem decryptCharacter_ok (c : Char) (rs : List ActiveRotor) (hne : rs ≠ [])
    (hvalid : ∀ r ∈ rs, ValidRotor r) (hc : c ∈ CHARSET) :
    ∃ m, m ∈ CHARSET ∧ decryptCharacter c rs = .ok (m, stepPipeline rs) := by
  have hvalid' : ∀ r ∈ (stepPipeline rs).reverse, ValidRotor r := fun r hr =>
    stepPipeline_valid rs hvalid r (List.mem_reverse.mp hr)
  obtain ⟨m, hm, hfold⟩ := foldlM_through_ok decryptCharacterThroughRotor
    (fun r c hv hcc => decryptThroughRotor_ok r c hv hcc)
    (stepPipeline rs).reverse c hvalid' hc
  refine ⟨m, hm, ?_⟩
  unfold decryptCharacter
  rw [if_neg (by simpa [List.isEmpty_iff] using hne)]
  show (List.foldlM (fun ch rotor => decryptCharacterThroughRotor ch rotor) c
      (stepPipeline rs).reverse) >>=
      (fun result => Except.ok (result, stepPipeline rs)) = .ok (m, stepPipeline rs)
  rw [hfold, ok_bind]

theorem encryptLoop_ok (cs : List Char) :
    ∀ (rs : List ActiveRotor), rs ≠ [] → (∀ r ∈ rs, ValidRotor r) →
      (∀ c ∈ cs, c ∈ CHARSET) →
      ∃ out : List Char,
        encryptLoop cs rs = .ok (out, [], stepPipeline^[cs.length] rs) ∧
        out.length = cs.length ∧ ∀ m ∈ out, m ∈ CHARSET := by
  induction cs with
  | nil =>
    intro rs _ _ _
    exact ⟨[], rfl, rfl, by simp⟩
  | cons c cs ih =>
    intro rs hne hvalidR hvalidC
    have hc : c ∈ CHARSET := hvalidC c (List.mem_cons_self _ _)
    have hvc : isValidCharacter c = true := by simp [isValidCharacter, hc]
    obtain ⟨m, hmem, henc⟩ := encryptCharacter_ok c rs hne hvalidR hc
    have hne' : stepPipeline rs ≠ [] := by
      intro h0
      have hl := stepPipeline_length rs
      rw [h0] at hl
      exact hne (List.length_eq_zero.mp hl.symm)
    have hvalidR' := stepPipeline_valid rs hvalidR
    obtain ⟨out, hloop, hlen, hmemout⟩ :=
      ih (stepPipeline rs) hne' hvalidR' (fun x hx => hvalidC x (List.mem_cons_of_mem _ hx))
    refine ⟨m :: out, ?_, by simp [hlen], ?_⟩
    · unfold encryptLoop
      rw [if_pos hvc, henc]
      show encryptLoop cs (stepPipeline rs) >>=
          (fun rest => Except.ok (m :: rest.1, rest.2.1, rest.2.2)) =
        Except.ok (m :: out, [], stepPipeline^[(c :: cs).length] rs)
      rw [hloop, ok_bind, List.length_cons, Function.iterate_succ_apply]
    · intro x hx
      rcases List.mem_cons.mp hx with rfl | hx'
      · exact hmem
      · exact hmemout x hx'

theorem decryptLoop_ok (cs : List Char) :
    ∀ (rs : List ActiveRotor), rs ≠ [] → (∀ r ∈ rs, ValidRotor r) →
      (∀ c ∈ cs, c ∈ CHARSET) →
      ∃ out : List Char,
        decryptLoop cs rs = .ok (out, [], stepPipeline^[cs.length] rs) ∧
        out.length = cs.length ∧ ∀ m ∈ out, m ∈ CHARSET := by
  induction cs with
  | nil =>
    intro rs _ _ _
    exact ⟨[], rfl, rfl, by simp⟩
  | cons c cs ih =>
    intro rs hne hvalidR hvalidC
    have hc : c ∈ CHARSET := hvalidC c (List.mem_cons_self _ _)
    have hvc : isValidCharacter c = true := by simp [isValidCharacter, hc]
    obtain ⟨m, hmem, hdec⟩ := decryptCharacter_ok c rs hne hvalidR hc
    have hne' : stepPipeline rs ≠ [] := by
      intro h0
      have hl := stepPipeline_length rs
      rw [h0] at hl
      exact hne (List.length_eq_zero.mp hl.symm)
    have hvalidR' := stepPipeline_valid rs hvalidR
    obtain ⟨out, hloop, hlen, hmemout⟩ :=
      ih (stepPipeline rs) hne' hvalidR' (fun x hx => hvalidC x (List.mem_cons_of_mem _ hx))
    refine ⟨m :: out, ?_, by simp [hlen], ?_⟩
    · unfold decryptLoop
      rw [if_pos hvc, hdec]
      show decryptLoop cs (stepPipeline rs) >>=
          (fun rest => Except.ok (m :: rest.1, rest.2.1, rest.2.2)) =
        Except.ok (m :: out, [], stepPipeline^[(c :: cs).length] rs)
      rw [hloop, ok_bind, List.length_cons, Function.iterate_succ_apply]
    · intro x hx
      rcases List.mem_cons.mp hx with rfl | hx'
      · exact hmem
      · exact hmemout x hx'


/-! ### Validator success lemmas -/

theorem firstInvalidPosition_eq_none {l : List Int} :
    ∀ {i : Nat}, firstInvalidPosition l i = none ↔ ∀ p ∈ l, 1 ≤ p ∧ p ≤ 64 := by
  induction l with
  | nil => simp [firstInvalidPosition]
  | cons a rest ih =>
    intro i
    by_cases h : a < ROTOR_POSITION_MIN ∨ ROTOR_POSITION_MAX < a
    · rw [show firstInvalidPosition (a :: rest) i = some i from by
        simp [firstInvalidPosition, h]]
      constructor
      · intro hc; cases hc
      · intro hall
        exfalso
        have := hall a (List.mem_cons_self _ _)
        unfold ROTOR_POSITION_MIN ROTOR_POSITION_MAX at h
        omega
    · rw [show firstInvalidPosition (a :: rest) i = firstInvalidPosition rest (i + 1) from by
        simp [firstInvalidPosition, h]]
      rw [ih]
      unfold ROTOR_POSITION_MIN ROTOR_POSITION_MAX at h
      constructor
      · intro hall p hp
        rcases List.mem_cons.mp hp with rfl | hp'
        · omega
        · exact hall p hp'
      · intro hall p hp
        exact hall p (List.mem_cons_of_mem _ hp)

theorem validateEncryptionConfig_ok {config : EncryptionConfig}
    (h : validateEncryptionConfig config = .ok ()) :
    config.rotorIds ≠ [] ∧
    config.startPositions.length = config.rotorIds.length ∧
    ∀ p ∈ config.startPositions, 1 ≤ p ∧ p ≤ 64 := by
  unfold validateEncryptionConfig at h
  by_cases h1 : config.rotorIds.length = 0
  · rw [if_pos h1] at h; cases h
  · rw [if_neg h1] at h
    by_cases h2 : MAX_ACTIVE_ROTORS < config.rotorIds.length
    · rw [if_pos h2] at h; cases h
    · rw [if_neg h2] at h
      by_cases h3 : config.startPositions.length ≠ config.rotorIds.length
      · rw [if_pos h3] at h; cases h
      · rw [if_neg h3] at h
        cases hf : firstInvalidPosition config.startPositions 0 with
        | some i => rw [hf] at h; cases h
        | none =>
          refine ⟨fun h0 => h1 (by simp [h0]), not_not.mp (by simpa using h3), ?_⟩
          exact firstInvalidPosition_eq_none.mp hf

theorem validateRotorConfig_ok_perm {rc : RotorConfig}
    (h : validateRotorConfig rc = .ok ()) :
    validateRotorPermutation rc.permutation = .ok () := by
  unfold validateRotorConfig at h
  by_cases h1 : isBlankString rc.id = true
  · rw [if_pos h1] at h; cases h
  · rw [if_neg h1] at h
    by_cases h2 : isBlankString rc.name = true
    · rw [if_pos h2] at h; cases h
    · rwa [if_neg h2] at h

theorem mapM_createActiveRotor_ok (lookup : String → Option RotorConfig) :
    ∀ (pairs : List (String × Int)),
      (∀ pr ∈ pairs, ∃ rc, lookup pr.1 = some rc ∧ validateRotorConfig rc = .ok ()) →
      (∀ pr ∈ pairs, 1 ≤ pr.2 ∧ pr.2 ≤ 64) →
      ∃ rotors, pairs.mapM (fun p =>
          match lookup p.1 with
          | none => Except.error (VError.rotorNotFound p.1)
          | some rotorConfig => createActiveRotor rotorConfig p.2) = .ok rotors ∧
        rotors.length = pairs.length ∧ ∀ r ∈ rotors, ValidRotor r := by
  intro pairs
  induction pairs with
  | nil => intro _ _; exact ⟨[], rfl, rfl, by simp⟩
  | cons pr rest ih =>
    intro hlook hpos
    obtain ⟨rc, hrc, hval⟩ := hlook pr (List.mem_cons_self _ _)
    obtain ⟨hp1, hp2⟩ := hpos pr (List.mem_cons_self _ _)
    obtain ⟨rotors, hmap, hlen, hvalid⟩ :=
      ih (fun x hx => hlook x (List.mem_cons_of_mem _ hx))
        (fun x hx => hpos x (List.mem_cons_of_mem _ hx))
    have hcreate : createActiveRotor rc pr.2 =
        .ok { config := rc, position := pr.2, stepCount := 0 } := by
      unfold createActiveRotor
      rw [hval]
      rfl
    refine ⟨{ config := rc, position := pr.2, stepCount := 0 } :: rotors, ?_,
      by simp [hlen], ?_⟩
    · rw [List.mapM_cons, hrc]
      show (createActiveRotor rc pr.2) >>= _ = _
      rw [hcreate, ok_bind, hmap, ok_bind]
      rfl
    · intro r hr
      rcases List.mem_cons.mp hr with rfl | hr'
      · exact ⟨validateRotorConfig_ok_perm hval, hp1, hp2⟩
      · exact hvalid r hr'

theorem createActiveRotors_ok (config : EncryptionConfig)
    (lookup : String → Option RotorConfig)
    (hcfg : validateEncryptionConfig config = .ok ())
    (hlook : ∀ i ∈ config.rotorIds, ∃ rc, lookup i = some rc ∧
      validateRotorConfig rc = .ok ()) :
    ∃ rotors, createActiveRotors config lookup = .ok rotors ∧
      rotors ≠ [] ∧ ∀ r ∈ rotors, ValidRotor r := by
  obtain ⟨hne, hlen, hpos⟩ := validateEncryptionConfig_ok hcfg
  have hzlen : (config.rotorIds.zip config.startPositions).length =
      config.rotorIds.length := by
    simp [List.length_zip, hlen]
  obtain ⟨rotors, hmap, hrlen, hvalid⟩ :=
    mapM_createActiveRotor_ok lookup (config.rotorIds.zip config.startPositions)
      (fun p hp => hlook p.1 (List.of_mem_zip hp).1)
      (fun p hp => hpos p.2 (List.of_mem_zip hp).2)
  refine ⟨rotors, hmap, ?_, hvalid⟩
  intro h0
  apply hne
  have : config.rotorIds.length = 0 := by
    rw [← hzlen, ← hrlen, h0]
    rfl
  exact List.length_eq_zero.mp this

theorem collectInvalidChars_of_valid (text : List Char) :
    ∀ acc, (∀ c ∈ text, isValidCharacter c = true) →
      text.foldl (fun acc c =>
        if isValidCharacter c then acc
        else if c ∈ acc then acc else acc ++ [c]) acc = acc := by
  induction text with
  | nil => intro acc _; rfl
  | cons c cs ih =>
    intro acc hall
    rw [List.foldl_cons, if_pos (hall c (List.mem_cons_self _ _))]
    exact ih acc (fun x hx => hall x (List.mem_cons_of_mem _ hx))

theorem validateEncryptableText_ok {text : List Char}
    (h : ∀ c ∈ text, c ∈ CHARSET) : validateEncryptableText text = .ok () := by
  have hnil : collectInvalidChars text = [] :=
    collectInvalidChars_of_valid text []
      (fun c hc => by simp [isValidCharacter, h c hc])
  unfold validateEncryptableText
  rw [if_neg (by simp [collectInvalidChars] at hnil ⊢; exact hnil)]

theorem encryptText_ok (text : List Char) (config : EncryptionConfig)
    (lookup : String → Option RotorConfig)
    (hcfg : validateEncryptionConfig config = .ok ())
    (hlook : ∀ i ∈ config.rotorIds, ∃ rc, lookup i = some rc ∧
      validateRotorConfig rc = .ok ())
    (htext : ∀ c ∈ text, c ∈ CHARSET) :
    ∃ rotors out,
      createActiveRotors config lookup = .ok rotors ∧
      encryptText text config lookup = .ok
        { result := out
          finalPositions := (stepPipeline^[text.length] rotors).map (·.position)
          charactersProcessed := text.length
          warnings := [] } ∧
      out.length = text.length ∧ ∀ m ∈ out, m ∈ CHARSET := by
  obtain ⟨rotors, hmap, hne, hvalid⟩ := createActiveRotors_ok config lookup hcfg hlook
  obtain ⟨out, hloop, hlen, hmem⟩ := encryptLoop_ok text rotors hne hvalid htext
  refine ⟨rotors, out, hmap, ?_, hlen, hmem⟩
  unfold encryptText
  rw [hcfg, ok_bind, validateEncryptableText_ok htext, ok_bind, hmap, ok_bind, hloop,
    ok_bind]

theorem decryptText_ok (text : List Char) (config : EncryptionConfig)
    (lookup : String → Option RotorConfig)
    (hcfg : validateEncryptionConfig config = .ok ())
    (hlook : ∀ i ∈ config.rotorIds, ∃ rc, lookup i = some rc ∧
      validateRotorConfig rc = .ok ())
    (htext : ∀ c ∈ text, c ∈ CHARSET) :
    ∃ rotors out,
      createActiveRotors config lookup = .ok rotors ∧
      decryptText text config lookup = .ok
        { result := out
          finalPositions := (stepPipeline^[text.length] rotors).map (·.position)
          charactersProcessed := text.length
          warnings := [] } ∧
      out.length = text.length ∧ ∀ m ∈ out, m ∈ CHARSET := by
  obtain ⟨rotors, hmap, hne, hvalid⟩ := createActiveRotors_ok config lookup hcfg hlook
  obtain ⟨out, hloop, hlen, hmem⟩ := decryptLoop_ok text rotors hne hvalid htext
  refine ⟨rotors, out, hmap, ?_, hlen, hmem⟩
  unfold decryptText
  rw [hcfg, ok_bind, validateEncryptableText_ok htext, ok_bind, hmap, ok_bind, hloop,
    ok_bind]

/-! ### Claims C7 and C9 -/

/-- Claim C7: for every valid configuration (every configured rotor id
resolving to a validator-approved definition) and every alphabet-only
plaintext, `encryptText` succeeds, `decryptText` on its output succeeds,
and the two calls report identical `finalPositions` for every rotor. -/
theorem C7_final_positions_match (text : List Char) (config : EncryptionConfig)
    (lookup : String → Option RotorConfig)
    (hcfg : validateEncryptionConfig config = .ok ())
    (hlook : ∀ i ∈ config.rotorIds, ∃ rc, lookup i = some rc ∧
      validateRotorConfig rc = .ok ())
    (htext : ∀ c ∈ text, c ∈ CHARSET) :
    ∃ r1 r2, encryptText text config lookup = .ok r1 ∧
      decryptText r1.result config lookup = .ok r2 ∧
      r2.finalPositions = r1.finalPositions := by
  obtain ⟨rotors, out, hmap, henc, hlen, hmem⟩ :=
    encryptText_ok text config lookup hcfg hlook htext
  obtain ⟨rotors2, out2, hmap2, hdec, hlen2, hmem2⟩ :=
    decryptText_ok out config lookup hcfg hlook hmem
  have hrr : rotors2 = rotors := by
    rw [hmap] at hmap2
    injection hmap2 with h
    exact h.symm
  refine ⟨_, _, henc, hdec, ?_⟩
  show (stepPipeline^[out.length] rotors2).map (·.position) =
    (stepPipeline^[text.length] rotors).map (·.position)
  rw [hrr, hlen]

/-- Claim C9: the final positions reported by `encryptText` depend only on
the number of processed characters: two alphabet-only texts of the same
length produce identical `finalPositions` under the same configuration
(rotor stepping is independent of the characters being transformed). -/
theorem C9_positions_independent_of_text (t1 t2 : List Char)
    (config : EncryptionConfig) (lookup : String → Option RotorConfig)
    (hcfg : validateEncryptionConfig config = .ok ())
    (hlook : ∀ i ∈ config.rotorIds, ∃ rc, lookup i = some rc ∧
      validateRotorConfig rc = .ok ())
    (h1 : ∀ c ∈ t1, c ∈ CHARSET) (h2 : ∀ c ∈ t2, c ∈ CHARSET)
    (hlen : t1.length = t2.length) :
    ∃ r1 r2, encryptText t1 config lookup = .ok r1 ∧
      encryptText t2 config lookup = .ok r2 ∧
      r1.finalPositions = r2.finalPositions := by
  obtain ⟨rotorsA, outA, hmapA, hencA, hlenA, _⟩ :=
    encryptText_ok t1 config lookup hcfg hlook h1
  obtain ⟨rotorsB, outB, hmapB, hencB, hlenB, _⟩ :=
    encryptText_ok t2 config lookup hcfg hlook h2
  have hrr : rotorsA = rotorsB := by
    rw [hmapA] at hmapB
    injection hmapB with h
  refine ⟨_, _, hencA, hencB, ?_⟩
  show (stepPipeline^[t1.length] rotorsA).map (·.position) =
    (stepPipeline^[t2.length] rotorsB).map (·.position)
  rw [hrr, hlen]


theorem swapLookup_ok :
    ∀ i ∈ oneRotorConfig.rotorIds, ∃ rc, swapLookup i = some rc ∧
      validateRotorConfig rc = .ok () := by
  intro i hi
  have hs : i = "swap" := List.mem_singleton.mp hi
  subst hs
  exact ⟨swapRotor, by decide, by decide⟩

/-- Witness for `C7_final_positions_match`: the swap rotor configuration
and the plaintext `"AB"`. -/
theorem C7_final_positions_match_witness :
    validateEncryptionConfig oneRotorConfig = .ok () ∧
    (∀ i ∈ oneRotorConfig.rotorIds, ∃ rc, swapLookup i = some rc ∧
      validateRotorConfig rc = .ok ()) ∧
    (∀ c ∈ (['A', 'B'] : List Char), c ∈ CHARSET) ∧
    (∃ r1 r2, encryptText ['A', 'B'] oneRotorConfig swapLookup = .ok r1 ∧
      decryptText r1.result oneRotorConfig swapLookup = .ok r2 ∧
      r2.finalPositions = r1.finalPositions) :=
  ⟨by decide, swapLookup_ok, by decide,
    C7_final_positions_match ['A', 'B'] oneRotorConfig swapLookup
      (by decide) swapLookup_ok (by decide)⟩

/-- Witness for `C9_positions_independent_of_text`: two different
two-character plaintexts through the swap rotor configuration. -/
theorem C9_positions_independent_of_text_witness :
    validateEncryptionConfig oneRotorConfig = .ok () ∧
    (∀ i ∈ oneRotorConfig.rotorIds, ∃ rc, swapLookup i = some rc ∧
      validateRotorConfig rc = .ok ()) ∧
    (∀ c ∈ (['A', 'B'] : List Char), c ∈ CHARSET) ∧
    (∀ c ∈ (['.', '.'] : List Char), c ∈ CHARSET) ∧
    (['A', 'B'] : List Char).length = (['.', '.'] : List Char).length ∧
    (∃ r1 r2, encryptText ['A', 'B'] oneRotorConfig swapLookup = .ok r1 ∧
      encryptText ['.', '.'] oneRotorConfig swapLookup = .ok r2 ∧
      r1.finalPositions = r2.finalPositions) :=
  ⟨by decide, swapLookup_ok, by decide, by decide, by decide,
    C9_positions_independent_of_text ['A', 'B'] ['.', '.'] oneRotorConfig swapLookup
      (by decide) swapLookup_ok (by decide) (by decide) (by decide)⟩

end Enigma
